import Mathlib

/-!
Shallow embedding of `scripts/update-config-logos.py`.

The script loads a JSON configuration document, builds an inventory of
filenames present in a logos directory, rewrites each chapter's `logoUrl`
to a local path when the expected local file is present in the inventory,
and writes the document back.  Strings are modelled as lists of characters
(`Str`); Python's `str.lower` is modelled per simple ASCII lowercase rules,
which is what the spec prescribes for the sanitizer's case folding.
-/

/-- Strings of the embedded program: lists of characters. -/
abbrev Str := List Char

/-- ASCII lowercase of a whole string (models `str.lower`). -/
def lowerStr (s : Str) : Str := s.map Char.toLower

/-- Membership in the character class `[a-z0-9]` of the sanitizer's regex. -/
def isLowerAlnum (c : Char) : Bool :=
  ('a' ≤ c && c ≤ 'z') || ('0' ≤ c && c ≤ '9')

/-- `re.sub(r'[^a-z0-9]+', '-', s)` up to hyphen collapsing: every character
outside `[a-z0-9]` becomes a hyphen.  A maximal run of such characters thus
becomes a run of hyphens, which the subsequent `re.sub(r'-+', '-', s)`
(modelled by `collapseHyphens`) merges into a single hyphen, exactly as the
two substitutions in the source do. -/
def hyphenate (s : Str) : Str :=
  s.map (fun c => if isLowerAlnum c then c else '-')

/-- `re.sub(r'-+', '-', s)`: collapse each run of hyphens to one hyphen. -/
def collapseHyphens : Str → Str
  | [] => []
  | [c] => [c]
  | c :: d :: rest =>
    if c == '-' && d == '-' then collapseHyphens (d :: rest)
    else c :: collapseHyphens (d :: rest)

/-- `s.strip('-')`: remove leading and trailing hyphens. -/
def stripHyphens (s : Str) : Str :=
  ((s.dropWhile (fun c => c == '-')).reverse.dropWhile (fun c => c == '-')).reverse

/-- `sanitize_filename` from the source: lowercase, replace runs of
characters outside `[a-z0-9]` by single hyphens, collapse duplicate
hyphens, strip leading/trailing hyphens, truncate to 50 characters. -/
def sanitize_filename (title : Str) : Str :=
  (stripHyphens (collapseHyphens (hyphenate (lowerStr title)))).take 50

/-- The alternatives of the extension regex `\.(jpg|jpeg|png|svg|gif|webp)(\?|$)`,
in the order the alternation lists them. -/
def extTokens : List Str :=
  [['j','p','g'], ['j','p','e','g'], ['p','n','g'],
   ['s','v','g'], ['g','i','f'], ['w','e','b','p']]

/-- Case-insensitive match of a (lowercase) pattern against the front of the
text; on success returns the remaining text.  Models `re.IGNORECASE` on the
ASCII alternatives of the extension regex. -/
def matchCI : Str → Str → Option Str
  | [], s => some s
  | _ :: _, [] => none
  | p :: ps, c :: cs => if Char.toLower c == p then matchCI ps cs else none

/-- The `(\?|$)` tail of the extension regex: end of string or a query
string start. -/
def endOrQuery : Str → Bool
  | [] => true
  | '?' :: _ => true
  | _ => false

/-- Try the regex alternatives in order at a fixed position (just after a
literal dot): an alternative succeeds when it matches case-insensitively and
is immediately followed by end-of-string or `?`.  Returns the (lowercase)
token, i.e. `match.group(1).lower()`. -/
def tryTokens : List Str → Str → Option Str
  | [], _ => none
  | t :: ts, s =>
    match matchCI t s with
    | some rest => if endOrQuery rest then some t else tryTokens ts s
    | none => tryTokens ts s

/-- `re.search` for `\.(jpg|jpeg|png|svg|gif|webp)(\?|$)`: scan left to
right for a dot at which one of the alternatives matches. -/
def searchExt : Str → Option Str
  | [] => none
  | c :: rest =>
    if c == '.' then
      match tryTokens extTokens rest with
      | some t => some t
      | none => searchExt rest
    else searchExt rest

/-- `get_extension_from_url` from the source: `.png` for an empty URL,
otherwise the matched extension lowercased with a leading dot, defaulting
to `.png` when the regex finds no match. -/
def get_extension_from_url (url : Str) : Str :=
  if url = [] then '.' :: ['p','n','g']
  else
    match searchExt url with
    | some t => '.' :: t
    | none => '.' :: ['p','n','g']

/-- `filename.startswith('.')`. -/
def startsWithDot : Str → Bool
  | [] => false
  | c :: _ => c == '.'

/-- The inventory builder: `none` models a missing logos directory (the
`os.path.exists` guard), `some entries` its direct-child names.  Entries
whose name begins with a dot are excluded; the rest form the
`downloaded_logos` set (membership is all the script uses of it). -/
def buildInventory : Option (List Str) → List Str
  | none => []
  | some entries => entries.filter (fun f => !startsWithDot f)

/-- A chapter record: `id`, `title` and `logoUrl` may each be absent, and a
chapter may carry arbitrary further fields, modelled opaquely as key-value
pairs. -/
structure Chapter where
  id : Option Str
  title : Option Str
  logoUrl : Option Str
  otherFields : List (Str × Str)
deriving DecidableEq

/-- The configuration document: the ordered chapter list plus all other
parts of the JSON document, modelled opaquely. -/
structure Document where
  chapters : List Chapter
  otherParts : List (Str × Str)
deriving DecidableEq

/-- Outcome of processing one chapter, matching the three counters. -/
inductive Status where
  | updated
  | missing
  | skipped
deriving DecidableEq

/-- The three counters of the run summary. -/
structure Counts where
  updated : Nat
  missing : Nat
  skipped : Nat
deriving DecidableEq

/-- The expected local filename of a chapter:
`sanitize_filename(title) + get_extension_from_url(logoUrl)` with the
source's `.get(..., '')` defaults. -/
def expectedFilename (ch : Chapter) : Str :=
  sanitize_filename (ch.title.getD []) ++ get_extension_from_url (ch.logoUrl.getD [])

/-- The body of the chapter loop for one chapter: skip on an empty or
absent `logoUrl`; otherwise rewrite `logoUrl` to
`assets/logos/<expected_filename>` when the expected filename is in the
inventory, and leave the chapter untouched when it is not. -/
def processChapter (inv : List Str) (ch : Chapter) : Chapter × Status :=
  let original_url := ch.logoUrl.getD []
  if original_url = [] then
    (ch, Status.skipped)
  else
    let base_name := sanitize_filename (ch.title.getD [])
    let extension := get_extension_from_url original_url
    let expected_filename := base_name ++ extension
    let local_path := "assets/logos/".data ++ expected_filename
    if expected_filename ∈ inv then
      ({ ch with logoUrl := some local_path }, Status.updated)
    else
      (ch, Status.missing)

/-- The chapter loop over the whole list, threading the three counters. -/
def processChapters (inv : List Str) : List Chapter → List Chapter × Counts
  | [] => ([], ⟨0, 0, 0⟩)
  | ch :: rest =>
    let r := processChapter inv ch
    let rs := processChapters inv rest
    (r.1 :: rs.1,
      match r.2 with
      | Status.updated => { rs.2 with updated := rs.2.updated + 1 }
      | Status.missing => { rs.2 with missing := rs.2.missing + 1 }
      | Status.skipped => { rs.2 with skipped := rs.2.skipped + 1 })

/-- The whole in-memory transformation: the chapter list is replaced by the
processed one; everything else in the document is passed through. -/
def updateDocument (inv : List Str) (doc : Document) : Document :=
  { doc with chapters := (processChapters inv doc.chapters).1 }

/-- The counters of a run. -/
def runCounts (inv : List Str) (doc : Document) : Counts :=
  (processChapters inv doc.chapters).2

/-! ### Character-class facts about the sanitizer -/

/-- Every character of `hyphenate s` is in `[a-z0-9]` or is a hyphen. -/
theorem mem_hyphenate {c : Char} {s : Str} (h : c ∈ hyphenate s) :
    isLowerAlnum c = true ∨ c = '-' := by
  rcases List.mem_map.1 h with ⟨a, _, rfl⟩
  by_cases ha : isLowerAlnum a
  · left; simp [ha]
  · right; simp [ha]

/-- Collapsing hyphens only removes characters. -/
theorem mem_collapseHyphens {c : Char} : ∀ {s : Str}, c ∈ collapseHyphens s → c ∈ s := by
  intro s
  induction s using collapseHyphens.induct with
  | case1 => intro h; simp [collapseHyphens] at h
  | case2 d => intro h; simp [collapseHyphens] at h; simp [h]
  | case3 a d rest hcd ih =>
    intro h
    rw [collapseHyphens, if_pos hcd] at h
    exact List.mem_cons_of_mem a (ih h)
  | case4 a d rest hcd ih =>
    intro h
    rw [collapseHyphens, if_neg hcd] at h
    rcases List.mem_cons.1 h with rfl | h
    · exact List.mem_cons_self _ _
    · exact List.mem_cons_of_mem a (ih h)

/-- Stripping hyphens only removes characters. -/
theorem mem_stripHyphens {c : Char} {s : Str} (h : c ∈ stripHyphens s) : c ∈ s := by
  unfold stripHyphens at h
  rw [List.mem_reverse] at h
  have h1 := ((List.dropWhile_suffix _).sublist).mem h
  rw [List.mem_reverse] at h1
  exact ((List.dropWhile_suffix _).sublist).mem h1

/-- Every character of a sanitized title is a lowercase letter, a digit, or
a hyphen. -/
theorem sanitize_chars {c : Char} {t : Str} (h : c ∈ sanitize_filename t) :
    isLowerAlnum c = true ∨ c = '-' := by
  unfold sanitize_filename at h
  exact mem_hyphenate (mem_collapseHyphens (mem_stripHyphens (List.take_subset _ _ h)))

/-- A sanitized title never contains a dot. -/
theorem sanitize_no_dot {c : Char} {t : Str} (h : c ∈ sanitize_filename t) : ¬(c = '.') := by
  intro hc
  subst hc
  rcases sanitize_chars h with h1 | h1
  · exact absurd h1 (by decide)
  · exact absurd h1 (by decide)

/-! ### Leading and trailing hyphens -/

/-- The head of `dropWhile p` never satisfies `p`. -/
theorem head?_dropWhile_not (p : Char → Bool) :
    ∀ (l : Str) {c : Char}, (l.dropWhile p).head? = some c → p c = false := by
  intro l
  induction l with
  | nil => intro c h; simp at h
  | cons a l ih =>
    intro c h
    rw [List.dropWhile_cons] at h
    by_cases ha : p a
    · rw [if_pos ha] at h; exact ih h
    · rw [if_neg ha] at h
      simp only [List.head?_cons, Option.some_inj] at h
      subst h
      exact Bool.eq_false_iff.2 ha

/-- The result of `strip('-')` never begins with a hyphen. -/
theorem stripHyphens_head {s : Str} {c : Char} (h : (stripHyphens s).head? = some c) :
    ¬(c = '-') := by
  unfold stripHyphens at h
  rw [List.head?_reverse] at h
  rcases List.dropWhile_suffix (l := (s.dropWhile (fun c => c == '-')).reverse)
      (fun c => c == '-') with ⟨t, ht⟩
  have h2 : ((s.dropWhile (fun c => c == '-')).reverse).getLast? = some c := by
    rw [← ht, List.getLast?_append, h]; rfl
  rw [List.getLast?_reverse] at h2
  have h3 := head?_dropWhile_not (fun c => c == '-') s h2
  simp at h3
  exact h3

/-- The result of `strip('-')` never ends with a hyphen. -/
theorem stripHyphens_getLast {s : Str} {c : Char} (h : (stripHyphens s).getLast? = some c) :
    ¬(c = '-') := by
  unfold stripHyphens at h
  rw [List.getLast?_reverse] at h
  have h3 := head?_dropWhile_not (fun c => c == '-') _ h
  simp at h3
  exact h3

/-! ### No consecutive hyphens -/

/-- Two adjacent characters are not both hyphens. -/
def HyphenApart (a b : Char) : Prop := ¬(a = '-' ∧ b = '-')

theorem hyphenApart_symm {a b : Char} (h : HyphenApart a b) : HyphenApart b a :=
  fun hc => h ⟨hc.2, hc.1⟩

/-- Collapsing hyphen runs preserves the head character. -/
theorem collapseHyphens_head? : ∀ s : Str, (collapseHyphens s).head? = s.head? := by
  intro s
  induction s using collapseHyphens.induct with
  | case1 => rfl
  | case2 c => rfl
  | case3 c d rest hcd ih =>
    rw [collapseHyphens, if_pos hcd, ih]
    have hcd' : c = '-' ∧ d = '-' := by
      simp only [Bool.and_eq_true, beq_iff_eq] at hcd
      exact hcd
    simp [hcd'.1, hcd'.2]
  | case4 c d rest hcd ih => rw [collapseHyphens, if_neg hcd]; rfl

/-- After `re.sub(r'-+', '-', s)` no two adjacent characters are hyphens. -/
theorem chain'_collapseHyphens : ∀ s : Str, List.Chain' HyphenApart (collapseHyphens s) := by
  intro s
  induction s using collapseHyphens.induct with
  | case1 => simp [collapseHyphens]
  | case2 c => simp [collapseHyphens]
  | case3 c d rest hcd ih => rw [collapseHyphens, if_pos hcd]; exact ih
  | case4 c d rest hcd ih =>
    rw [collapseHyphens, if_neg hcd]
    refine List.chain'_cons'.2 ⟨?_, ih⟩
    intro y hy
    rw [collapseHyphens_head?] at hy
    simp only [List.head?_cons, Option.mem_def, Option.some_inj] at hy
    subst hy
    intro hcontra
    exact hcd (by simp [hcontra.1, hcontra.2])

/-- Stripping preserves hyphen-separation. -/
theorem chain'_stripHyphens {s : Str} (h : List.Chain' HyphenApart s) :
    List.Chain' HyphenApart (stripHyphens s) := by
  unfold stripHyphens
  have h1 : List.Chain' HyphenApart (s.dropWhile (fun c => c == '-')) :=
    h.suffix (List.dropWhile_suffix _)
  have h2 : List.Chain' HyphenApart ((s.dropWhile (fun c => c == '-')).reverse) :=
    List.chain'_reverse.2 (h1.imp (fun _ _ hab => hyphenApart_symm hab))
  have h3 := h2.suffix (List.dropWhile_suffix (fun c => c == '-'))
  exact List.chain'_reverse.2 (h3.imp (fun _ _ hab => hyphenApart_symm hab))

/-- A sanitized title never has two consecutive hyphens. -/
theorem chain'_sanitize (t : Str) : List.Chain' HyphenApart (sanitize_filename t) :=
  (chain'_stripHyphens (chain'_collapseHyphens _)).take 50

/-! ### Empty and all-symbol titles -/

theorem hyphenate_all_symbol {t : Str} (h : ∀ c ∈ t, isLowerAlnum c.toLower = false) :
    hyphenate (lowerStr t) = List.replicate t.length '-' := by
  rw [List.eq_replicate_iff]
  constructor
  · simp [hyphenate, lowerStr]
  · intro b hb
    rcases List.mem_map.1 hb with ⟨a, ha, rfl⟩
    rcases List.mem_map.1 ha with ⟨a0, ha0, rfl⟩
    simp [h a0 ha0]

theorem collapse_replicate :
    ∀ n : Nat, collapseHyphens (List.replicate n '-') = if n = 0 then [] else ['-'] := by
  intro n
  induction n with
  | zero => rfl
  | succ m ih =>
    cases m with
    | zero => simp [collapseHyphens]
    | succ k =>
      have hrep : List.replicate (k + 1 + 1) '-' = '-' :: List.replicate (k + 1) '-' :=
        List.replicate_succ '-' (k + 1)
      have hrep2 : List.replicate (k + 1) '-' = '-' :: List.replicate k '-' :=
        List.replicate_succ '-' k
      rw [hrep, hrep2, collapseHyphens, if_pos (by decide), ← hrep2, ih]
      simp

/-- An empty or all-symbol title sanitizes to the empty string. -/
theorem sanitize_all_symbol {t : Str} (h : ∀ c ∈ t, isLowerAlnum c.toLower = false) :
    sanitize_filename t = [] := by
  unfold sanitize_filename
  rw [hyphenate_all_symbol h, collapse_replicate]
  by_cases ht : t.length = 0
  · rw [if_pos ht]; rfl
  · rw [if_neg ht]; rfl

/-! ### Head and last of a take -/

theorem head?_take {l : Str} {n : Nat} {c : Char} (h : (l.take n).head? = some c) :
    l.head? = some c := by
  cases l with
  | nil => simp at h
  | cons a l' =>
    cases n with
    | zero => simp at h
    | succ m => rw [List.take_succ_cons, List.head?_cons] at h; exact h

/-- A concrete long title: 26 letters separated by single spaces, so that
the hyphenated base name has 51 characters and truncation cuts just after
a hyphen. -/
def longTitle : Str := "a a a a a a a a a a a a a a a a a a a a a a a a a a".data

/-- C4-counterexample: the claim "sanitize(title) never ends with a hyphen"
fails on the code: truncation to 50 characters happens after stripping, so
a title whose hyphenated form is longer than 50 characters can be cut right
after a hyphen.  `sanitize_filename` of `longTitle` has length 50 and ends
with `'-'`. -/
theorem sanitize_trailing_hyphen_cex :
    (sanitize_filename longTitle).getLast? = some '-' ∧
      (sanitize_filename longTitle).length = 50 := by
  constructor
  · decide
  · decide

/-- C4 (amended): `sanitize` is a pure function whose result has length at
most 50, contains only lowercase letters, digits and hyphens (hence is
lowercase), never has two consecutive hyphens, never starts with a hyphen,
and does not end with a hyphen whenever it is shorter than 50 characters
(i.e. whenever the 50-character truncation did not cut it); an empty or
all-symbol title yields the empty string. -/
theorem sanitize_spec (t : Str) :
    (sanitize_filename t).length ≤ 50 ∧
    (∀ c ∈ sanitize_filename t, isLowerAlnum c = true ∨ c = '-') ∧
    List.Chain' HyphenApart (sanitize_filename t) ∧
    (∀ c : Char, (sanitize_filename t).head? = some c → ¬(c = '-')) ∧
    ((sanitize_filename t).length < 50 →
      ∀ c : Char, (sanitize_filename t).getLast? = some c → ¬(c = '-')) ∧
    ((∀ c ∈ t, isLowerAlnum c.toLower = false) → sanitize_filename t = []) := by
  refine ⟨?_, ?_, chain'_sanitize t, ?_, ?_, sanitize_all_symbol⟩
  · rw [sanitize_filename, List.length_take]
    exact min_le_left _ _
  · intro c hc; exact sanitize_chars hc
  · intro c hc
    rw [sanitize_filename] at hc
    exact stripHyphens_head (head?_take hc)
  · intro hlen c hc
    rw [sanitize_filename] at hlen hc
    have hw : (stripHyphens (collapseHyphens (hyphenate (lowerStr t)))).length ≤ 50 := by
      by_contra hw
      rw [List.length_take] at hlen
      omega
    rw [List.take_of_length_le hw] at hc
    exact stripHyphens_getLast hc

/-- Witness for `sanitize_spec`: on the title `"Foo Bar"` the head is `'f'`,
and the all-symbol title `"??"` sanitizes to the empty string. -/
theorem sanitize_spec_witness :
    (sanitize_filename "Foo Bar".data).head? = some 'f' ∧
      ¬(('f' : Char) = '-') ∧
      (∀ c ∈ "??".data, isLowerAlnum c.toLower = false) ∧
      sanitize_filename "??".data = [] :=
  ⟨by decide, (sanitize_spec "Foo Bar".data).2.2.2.1 'f' (by decide), by decide,
    (sanitize_spec "??".data).2.2.2.2.2 (by decide)⟩

/-! ### Soundness and completeness of the extension search -/

/-- The token returned by `tryTokens` is one of the alternatives. -/
theorem tryTokens_mem : ∀ {toks : List Str} {s t : Str}, tryTokens toks s = some t → t ∈ toks := by
  intro toks
  induction toks with
  | nil => intro s t h; simp [tryTokens] at h
  | cons t' ts ih =>
    intro s t h
    rw [tryTokens] at h
    rcases hm : matchCI t' s with _ | rest
    · rw [hm] at h; exact List.mem_cons_of_mem _ (ih h)
    · rw [hm] at h
      dsimp only at h
      by_cases he : endOrQuery rest
      · rw [if_pos he] at h
        simp only [Option.some_inj] at h
        subst h; exact List.mem_cons_self _ _
      · rw [if_neg he] at h; exact List.mem_cons_of_mem _ (ih h)

/-- The token returned by `searchExt` is one of the regex alternatives. -/
theorem searchExt_mem : ∀ {s t : Str}, searchExt s = some t → t ∈ extTokens := by
  intro s
  induction s using searchExt.induct with
  | case1 => intro t h; simp [searchExt] at h
  | case2 c rest hc t' htt =>
    intro t h
    rw [searchExt, if_pos hc, htt] at h
    simp only [Option.some_inj] at h
    subst h; exact tryTokens_mem htt
  | case3 c rest hc htt ih =>
    intro t h
    rw [searchExt, if_pos hc, htt] at h
    exact ih h
  | case4 c rest hc ih =>
    intro t h
    rw [searchExt, if_neg hc] at h
    exact ih h

/-- A successful case-insensitive match decomposes the text into matched
characters (that lowercase to the pattern) and the rest. -/
theorem matchCI_decomp :
    ∀ {p s rest : Str}, matchCI p s = some rest →
      ∃ tc, s = tc ++ rest ∧ lowerStr tc = p := by
  intro p
  induction p with
  | nil =>
    intro s rest h
    rw [matchCI] at h
    simp only [Option.some_inj] at h
    exact ⟨[], by simp [h, lowerStr]⟩
  | cons p0 ps ih =>
    intro s rest h
    cases s with
    | nil => simp [matchCI] at h
    | cons c cs =>
      rw [matchCI] at h
      by_cases hcp : Char.toLower c == p0
      · rw [if_pos hcp] at h
        rcases ih h with ⟨tc, rfl, hlow⟩
        refine ⟨c :: tc, rfl, ?_⟩
        simp only [lowerStr, List.map_cons]
        rw [show Char.toLower c = p0 from eq_of_beq hcp]
        simpa [lowerStr] using hlow
      · rw [if_neg hcp] at h; exact absurd h (by simp)

/-- A text whose lowercase form is the pattern matches, leaving the rest. -/
theorem matchCI_complete :
    ∀ (tc post : Str), matchCI (lowerStr tc) (tc ++ post) = some post := by
  intro tc
  induction tc with
  | nil => intro post; rfl
  | cons c cs ih =>
    intro post
    simp only [lowerStr, List.map_cons, List.cons_append]
    rw [matchCI, if_pos (by simp)]
    exact ih post

/-- What a successful `tryTokens` means about the text. -/
theorem tryTokens_sound :
    ∀ {toks : List Str} {s t : Str}, tryTokens toks s = some t →
      ∃ tc post, s = tc ++ post ∧ lowerStr tc = t ∧ endOrQuery post = true := by
  intro toks
  induction toks with
  | nil => intro s t h; simp [tryTokens] at h
  | cons t' ts ih =>
    intro s t h
    rw [tryTokens] at h
    rcases hm : matchCI t' s with _ | rest
    · rw [hm] at h; exact ih h
    · rw [hm] at h
      dsimp only at h
      by_cases he : endOrQuery rest
      · rw [if_pos he] at h
        simp only [Option.some_inj] at h
        subst h
        rcases matchCI_decomp hm with ⟨tc, rfl, hlow⟩
        exact ⟨tc, rest, rfl, hlow, he⟩
      · rw [if_neg he] at h; exact ih h

/-- If some alternative matches at this position, `tryTokens` succeeds. -/
theorem tryTokens_complete :
    ∀ {toks : List Str} {t tc post : Str}, t ∈ toks → lowerStr tc = t →
      endOrQuery post = true → ∃ t', tryTokens toks (tc ++ post) = some t' := by
  intro toks
  induction toks with
  | nil => intro t tc post ht _ _; simp at ht
  | cons t' ts ih =>
    intro t tc post ht hlow he
    rcases hm : matchCI t' (tc ++ post) with _ | rest
    · rcases List.mem_cons.1 ht with rfl | ht'
      · rw [← hlow, matchCI_complete tc post] at hm; exact absurd hm (by simp)
      · rcases ih ht' hlow he with ⟨t'', h2⟩
        exact ⟨t'', by rw [tryTokens, hm]; exact h2⟩
    · by_cases he' : endOrQuery rest
      · exact ⟨t', by rw [tryTokens, hm]; dsimp only; rw [if_pos he']⟩
      · rcases List.mem_cons.1 ht with rfl | ht'
        · rw [← hlow, matchCI_complete tc post] at hm
          simp only [Option.some_inj] at hm
          subst hm
          exact absurd he he'
        · rcases ih ht' hlow he with ⟨t'', h2⟩
          exact ⟨t'', by rw [tryTokens, hm]; dsimp only; rw [if_neg he']; exact h2⟩

/-- The URL contains one of the extension alternatives, preceded by a dot
and immediately followed by end-of-string or `?` (case-insensitively):
the declarative reading of the regex `\.(jpg|jpeg|png|svg|gif|webp)(\?|$)`
having a match. -/
def hasExtToken (url : Str) : Prop :=
  ∃ pre tc post t, t ∈ extTokens ∧ lowerStr tc = t ∧ endOrQuery post = true ∧
    url = pre ++ '.' :: (tc ++ post)

/-- A successful search decomposes the URL as the regex describes. -/
theorem searchExt_sound :
    ∀ {s t : Str}, searchExt s = some t →
      ∃ pre tc post, s = pre ++ '.' :: (tc ++ post) ∧ lowerStr tc = t ∧
        endOrQuery post = true := by
  intro s
  induction s using searchExt.induct with
  | case1 => intro t h; simp [searchExt] at h
  | case2 c rest hc t' htt =>
    intro t h
    rw [searchExt, if_pos hc, htt] at h
    simp only [Option.some_inj] at h
    subst h
    rcases tryTokens_sound htt with ⟨tc, post, rfl, hlow, he⟩
    exact ⟨[], tc, post, by simp [eq_of_beq hc], hlow, he⟩
  | case3 c rest hc htt ih =>
    intro t h
    rw [searchExt, if_pos hc, htt] at h
    rcases ih h with ⟨pre, tc, post, rfl, hlow, he⟩
    exact ⟨c :: pre, tc, post, rfl, hlow, he⟩
  | case4 c rest hc ih =>
    intro t h
    rw [searchExt, if_neg hc] at h
    rcases ih h with ⟨pre, tc, post, rfl, hlow, he⟩
    exact ⟨c :: pre, tc, post, rfl, hlow, he⟩

/-- If the regex has a match somewhere in the URL, the search succeeds. -/
theorem searchExt_complete {s : Str} (h : hasExtToken s) : (searchExt s).isSome := by
  rcases h with ⟨pre, tc, post, t, hmem, hlow, he, rfl⟩
  induction pre with
  | nil =>
    rw [List.nil_append, searchExt, if_pos (by decide)]
    rcases tryTokens_complete hmem hlow he with ⟨t', ht'⟩
    rw [ht']
    rfl
  | cons c pre' ih =>
    rw [List.cons_append, searchExt]
    by_cases hc : c == '.'
    · rw [if_pos hc]
      rcases htt : tryTokens extTokens (pre' ++ '.' :: (tc ++ post)) with _ | t''
      · dsimp only; exact ih
      · rfl
    · rw [if_neg hc]; exact ih

/-- Any result of the resolver is a dot followed by one of the six tokens
(`.png` included, as the default). -/
theorem get_extension_shape (url : Str) :
    ∃ t ∈ extTokens, get_extension_from_url url = '.' :: t := by
  rw [get_extension_from_url]
  by_cases h0 : url = []
  · rw [if_pos h0]; exact ⟨['p','n','g'], by decide, rfl⟩
  · rw [if_neg h0]
    rcases hs : searchExt url with _ | t
    · exact ⟨['p','n','g'], by decide, rfl⟩
    · exact ⟨t, searchExt_mem hs, rfl⟩

/-- C5: the resolver returns `.png` on the empty URL; it returns `.png` on
every URL in which the regex has no match; and whenever the search finds a
token (dot-preceded, end-or-`?`-followed, case-insensitive), the result is
that token lowercased with a leading dot.  Conversely every URL with a
match resolves to the token the search finds. -/
theorem extension_resolver_spec :
    (get_extension_from_url [] = '.' :: ['p','n','g']) ∧
    (∀ url : Str, ¬hasExtToken url → get_extension_from_url url = '.' :: ['p','n','g']) ∧
    (∀ url t : Str, searchExt url = some t →
      t ∈ extTokens ∧ hasExtToken url ∧ get_extension_from_url url = '.' :: t) ∧
    (∀ url : Str, hasExtToken url →
      ∃ t, t ∈ extTokens ∧ searchExt url = some t ∧
        get_extension_from_url url = '.' :: t) := by
  have key : ∀ url t : Str, searchExt url = some t →
      t ∈ extTokens ∧ hasExtToken url ∧ get_extension_from_url url = '.' :: t := by
    intro url t hs
    have hmem := searchExt_mem hs
    rcases searchExt_sound hs with ⟨pre, tc, post, heq, hlow, he⟩
    have hne : ¬(url = []) := by
      rw [heq]; simp
    exact ⟨hmem, ⟨pre, tc, post, t, hmem, hlow, he, heq⟩,
      by rw [get_extension_from_url, if_neg hne, hs]⟩
  refine ⟨rfl, ?_, key, ?_⟩
  · intro url hnot
    by_cases h0 : url = []
    · rw [h0]; rfl
    · rcases hs : searchExt url with _ | t
      · rw [get_extension_from_url, if_neg h0, hs]
      · exact absurd (key url t hs).2.1 hnot
  · intro url htok
    have hsome := searchExt_complete htok
    rcases hs : searchExt url with _ | t
    · rw [hs] at hsome; simp at hsome
    · rcases key url t hs with ⟨hmem, _, hget⟩
      exact ⟨t, hmem, rfl, hget⟩

/-- Witness for `extension_resolver_spec`: on `https://x.com/a.PNG` the
search finds `png` and the resolver returns `.png`. -/
theorem extension_resolver_spec_witness :
    ['p','n','g'] ∈ extTokens ∧
      hasExtToken "https://x.com/a.PNG".data ∧
      get_extension_from_url "https://x.com/a.PNG".data = '.' :: ['p','n','g'] :=
  extension_resolver_spec.2.2.1 "https://x.com/a.PNG".data ['p','n','g'] (by decide)

/-! ### The chapter loop -/

/-- An empty or absent `logoUrl` takes the skip branch. -/
theorem processChapter_skip {inv : List Str} {ch : Chapter}
    (h : ch.logoUrl.getD [] = []) : processChapter inv ch = (ch, Status.skipped) := by
  simp [processChapter, h]

/-- A present expected filename takes the update branch. -/
theorem processChapter_updated {inv : List Str} {ch : Chapter}
    (h : ¬(ch.logoUrl.getD [] = [])) (hm : expectedFilename ch ∈ inv) :
    processChapter inv ch =
      ({ ch with logoUrl := some ("assets/logos/".data ++ expectedFilename ch) },
        Status.updated) := by
  rw [processChapter]
  dsimp only
  rw [if_neg h, ← expectedFilename, if_pos hm]

/-- An absent expected filename takes the missing branch. -/
theorem processChapter_missing {inv : List Str} {ch : Chapter}
    (h : ¬(ch.logoUrl.getD [] = [])) (hm : expectedFilename ch ∉ inv) :
    processChapter inv ch = (ch, Status.missing) := by
  rw [processChapter]
  dsimp only
  rw [if_neg h, ← expectedFilename, if_neg hm]

/-- The processed chapter list is the pointwise image of the input list. -/
theorem processChapters_fst (inv : List Str) :
    ∀ l : List Chapter,
      (processChapters inv l).1 = l.map (fun ch => (processChapter inv ch).1) := by
  intro l
  induction l with
  | nil => rfl
  | cons ch rest ih =>
    simp only [processChapters, List.map_cons]
    rw [ih]

/-- Per-chapter frame property: only `logoUrl` can change, and only on an
inventory hit. -/
theorem processChapter_frame (inv : List Str) (ch : Chapter) :
    (processChapter inv ch).1.id = ch.id ∧
    (processChapter inv ch).1.title = ch.title ∧
    (processChapter inv ch).1.otherFields = ch.otherFields ∧
    (¬((processChapter inv ch).1.logoUrl = ch.logoUrl) → expectedFilename ch ∈ inv) := by
  by_cases h : ch.logoUrl.getD [] = []
  · rw [processChapter_skip h]; exact ⟨rfl, rfl, rfl, fun hc => absurd rfl hc⟩
  · by_cases hm : expectedFilename ch ∈ inv
    · rw [processChapter_updated h hm]; exact ⟨rfl, rfl, rfl, fun _ => hm⟩
    · rw [processChapter_missing h hm]; exact ⟨rfl, rfl, rfl, fun hc => absurd rfl hc⟩

/-- C1: the run changes neither the chapter sequence's length nor its
order, every non-`logoUrl` chapter field and every other part of the
document pass through unchanged, and a chapter's `logoUrl` can differ only
when its expected filename is present in the inventory. -/
theorem frame_invariant (inv : List Str) (doc : Document) :
    (updateDocument inv doc).otherParts = doc.otherParts ∧
    (updateDocument inv doc).chapters.length = doc.chapters.length ∧
    ∀ (i : Nat) (h1 : i < doc.chapters.length)
      (h2 : i < (updateDocument inv doc).chapters.length),
      ((updateDocument inv doc).chapters.get ⟨i, h2⟩).id = (doc.chapters.get ⟨i, h1⟩).id ∧
      ((updateDocument inv doc).chapters.get ⟨i, h2⟩).title =
        (doc.chapters.get ⟨i, h1⟩).title ∧
      ((updateDocument inv doc).chapters.get ⟨i, h2⟩).otherFields =
        (doc.chapters.get ⟨i, h1⟩).otherFields ∧
      (¬(((updateDocument inv doc).chapters.get ⟨i, h2⟩).logoUrl =
          (doc.chapters.get ⟨i, h1⟩).logoUrl) →
        expectedFilename (doc.chapters.get ⟨i, h1⟩) ∈ inv) := by
  have hfst : (updateDocument inv doc).chapters =
      doc.chapters.map (fun ch => (processChapter inv ch).1) :=
    processChapters_fst inv doc.chapters
  refine ⟨rfl, ?_, ?_⟩
  · rw [hfst, List.length_map]
  · intro i h1 h2
    have hget : (updateDocument inv doc).chapters.get ⟨i, h2⟩ =
        (processChapter inv (doc.chapters.get ⟨i, h1⟩)).1 := by
      simp only [hfst, List.get_eq_getElem, List.getElem_map]
    rw [hget]
    exact processChapter_frame inv _

/-- The chapter of the spec's first example scenario. -/
def chExample : Chapter :=
  ⟨some ['1'], some "Chapter One: Intro!".data, some "https://x.com/a.PNG".data, []⟩

/-- The inventory of the spec's first example scenario. -/
def invExample : List Str := ["chapter-one-intro.png".data]

/-- A one-chapter document used by the witnesses. -/
def docExample : Document := ⟨[chExample], [("k".data, "v".data)]⟩

/-- Witness for `frame_invariant` at the example document. -/
theorem frame_invariant_witness :
    (updateDocument invExample docExample).otherParts = docExample.otherParts ∧
    (updateDocument invExample docExample).chapters.length = docExample.chapters.length ∧
    ((updateDocument invExample docExample).chapters.get ⟨0, by decide⟩).title =
      (docExample.chapters.get ⟨0, by decide⟩).title := by
  have h := frame_invariant invExample docExample
  exact ⟨h.1, h.2.1, (h.2.2 0 (by decide) (by decide)).2.1⟩

/-- The chapter at position `i` after the run is the processed chapter at
position `i` of the input. -/
theorem updateDocument_get (inv : List Str) (doc : Document) (i : Nat)
    (h1 : i < doc.chapters.length)
    (h2 : i < (updateDocument inv doc).chapters.length) :
    (updateDocument inv doc).chapters.get ⟨i, h2⟩ =
      (processChapter inv (doc.chapters.get ⟨i, h1⟩)).1 := by
  have hfst : (updateDocument inv doc).chapters =
      doc.chapters.map (fun ch => (processChapter inv ch).1) :=
    processChapters_fst inv doc.chapters
  simp only [hfst, List.get_eq_getElem, List.getElem_map]

/-- C2: a chapter with a non-empty `logoUrl` whose expected filename is in
the inventory has, after the run, its `logoUrl` equal to
`assets/logos/<expected_filename>`, and it counts as updated. -/
theorem update_on_inventory_hit (inv : List Str) (doc : Document) (i : Nat)
    (h1 : i < doc.chapters.length)
    (h2 : i < (updateDocument inv doc).chapters.length)
    (hurl : ¬((doc.chapters.get ⟨i, h1⟩).logoUrl.getD [] = []))
    (hmem : expectedFilename (doc.chapters.get ⟨i, h1⟩) ∈ inv) :
    ((updateDocument inv doc).chapters.get ⟨i, h2⟩).logoUrl =
      some ("assets/logos/".data ++ expectedFilename (doc.chapters.get ⟨i, h1⟩)) ∧
    (processChapter inv (doc.chapters.get ⟨i, h1⟩)).2 = Status.updated := by
  constructor
  · rw [updateDocument_get inv doc i h1 h2, processChapter_updated hurl hmem]
  · rw [processChapter_updated hurl hmem]

/-- Witness for `update_on_inventory_hit`: the spec's example — title
`"Chapter One: Intro!"`, URL `https://x.com/a.PNG`, inventory containing
`chapter-one-intro.png` — rewrites `logoUrl` to
`assets/logos/chapter-one-intro.png`. -/
theorem update_on_inventory_hit_witness :
    ((updateDocument invExample docExample).chapters.get ⟨0, by decide⟩).logoUrl =
      some "assets/logos/chapter-one-intro.png".data := by
  have h := update_on_inventory_hit invExample docExample 0
    (by decide) (by decide) (by decide) (by decide)
  rw [h.1]
  decide

/-- The chapter of the spec's third example scenario. -/
def chMissingExample : Chapter :=
  ⟨some ['3'], some "Foo Bar".data, some "https://cdn.x/img.svg?v=2".data, []⟩

/-- A one-chapter document whose expected logo is missing. -/
def docMissingExample : Document := ⟨[chMissingExample], []⟩

/-- C3: a chapter with a non-empty `logoUrl` whose expected filename is
absent from the inventory has, after the run, its `logoUrl` byte-for-byte
equal to its `logoUrl` before the run, and it counts as missing. -/
theorem keep_on_inventory_miss (inv : List Str) (doc : Document) (i : Nat)
    (h1 : i < doc.chapters.length)
    (h2 : i < (updateDocument inv doc).chapters.length)
    (hurl : ¬((doc.chapters.get ⟨i, h1⟩).logoUrl.getD [] = []))
    (hmem : expectedFilename (doc.chapters.get ⟨i, h1⟩) ∉ inv) :
    ((updateDocument inv doc).chapters.get ⟨i, h2⟩).logoUrl =
      (doc.chapters.get ⟨i, h1⟩).logoUrl ∧
    (processChapter inv (doc.chapters.get ⟨i, h1⟩)).2 = Status.missing := by
  constructor
  · rw [updateDocument_get inv doc i h1 h2, processChapter_missing hurl hmem]
  · rw [processChapter_missing hurl hmem]

/-- Witness for `keep_on_inventory_miss`: the spec's third example — title
`"Foo Bar"`, URL with `.svg?v=2`, empty inventory — keeps the URL. -/
theorem keep_on_inventory_miss_witness :
    ((updateDocument [] docMissingExample).chapters.get ⟨0, by decide⟩).logoUrl =
      (docMissingExample.chapters.get ⟨0, by decide⟩).logoUrl ∧
    (processChapter [] (docMissingExample.chapters.get ⟨0, by decide⟩)).2 =
      Status.missing :=
  keep_on_inventory_miss [] docMissingExample 0 (by decide) (by decide)
    (by decide) (by decide)

/-- C6: a chapter whose `logoUrl` is empty or absent is counted as skipped
and no field of it is mutated. -/
theorem skip_on_empty_logoUrl (inv : List Str) (ch : Chapter)
    (h : ch.logoUrl.getD [] = []) :
    processChapter inv ch = (ch, Status.skipped) :=
  processChapter_skip h

/-- Witness for `skip_on_empty_logoUrl`: the spec's second example — title
`"??"`, empty URL — is skipped unchanged. -/
theorem skip_on_empty_logoUrl_witness :
    processChapter invExample ⟨some ['2'], some "??".data, some [], []⟩ =
      (⟨some ['2'], some "??".data, some [], []⟩, Status.skipped) :=
  skip_on_empty_logoUrl invExample ⟨some ['2'], some "??".data, some [], []⟩ (by decide)

/-- The three counters account for every chapter exactly once. -/
theorem processChapters_counts (inv : List Str) :
    ∀ l : List Chapter,
      (processChapters inv l).2.updated + (processChapters inv l).2.missing +
        (processChapters inv l).2.skipped = l.length := by
  intro l
  induction l with
  | nil => rfl
  | cons ch rest ih =>
    cases hst : (processChapter inv ch).2 with
    | updated => simp only [processChapters, hst, List.length_cons]; omega
    | missing => simp only [processChapters, hst, List.length_cons]; omega
    | skipped => simp only [processChapters, hst, List.length_cons]; omega

/-- C7: for every run, updated + missing + skipped equals the total number
of chapters. -/
theorem counter_consistency (inv : List Str) (doc : Document) :
    (runCounts inv doc).updated + (runCounts inv doc).missing +
      (runCounts inv doc).skipped = doc.chapters.length :=
  processChapters_counts inv doc.chapters

/-- C8: the inventory is exactly the direct-child names not beginning with
a dot; `.hidden.png` is never in it; a missing directory yields an empty
inventory. -/
theorem inventory_spec :
    buildInventory none = [] ∧
    (∀ entries : List Str, ".hidden.png".data ∉ buildInventory (some entries)) ∧
    (∀ (entries : List Str) (f : Str),
      f ∈ buildInventory (some entries) ↔ f ∈ entries ∧ startsWithDot f = false) := by
  have h3 : ∀ (entries : List Str) (f : Str),
      f ∈ buildInventory (some entries) ↔ f ∈ entries ∧ startsWithDot f = false := by
    intro entries f
    simp only [buildInventory, List.mem_filter, Bool.not_eq_true']
  refine ⟨rfl, ?_, h3⟩
  intro entries h
  have h2 := ((h3 entries _).1 h).2
  exact absurd h2 (by decide)

/-- Witness for `inventory_spec`: a directory containing `.hidden.png` and
`a.png` yields an inventory without `.hidden.png`. -/
theorem inventory_spec_witness :
    ".hidden.png".data ∉ buildInventory (some [".hidden.png".data, "a.png".data]) :=
  inventory_spec.2.1 [".hidden.png".data, "a.png".data]

/-- C10: a chapter whose title sanitizes to the empty string and whose
`logoUrl` is non-empty is always counted missing and never mutated: its
expected filename is the bare extension, which starts with a dot and is
therefore excluded from any built inventory. -/
theorem empty_base_never_updated (d : Option (List Str)) (ch : Chapter)
    (ht : sanitize_filename (ch.title.getD []) = [])
    (hu : ¬(ch.logoUrl.getD [] = [])) :
    processChapter (buildInventory d) ch = (ch, Status.missing) := by
  apply processChapter_missing hu
  intro hmem
  rcases get_extension_shape (ch.logoUrl.getD []) with ⟨t, _, hext⟩
  have hexp : expectedFilename ch = '.' :: t := by
    rw [expectedFilename, ht, hext]; rfl
  cases d with
  | none => simp [buildInventory] at hmem
  | some entries =>
    rw [hexp, buildInventory, List.mem_filter] at hmem
    have h2 := hmem.2
    simp [startsWithDot] at h2

/-- Witness for `empty_base_never_updated`: an all-symbol title `"??"` with
a non-empty URL is missing even though `.png` files exist. -/
theorem empty_base_never_updated_witness :
    processChapter (buildInventory (some ["x.png".data]))
        ⟨none, some "??".data, some "http://a".data, []⟩ =
      (⟨none, some "??".data, some "http://a".data, []⟩, Status.missing) :=
  empty_base_never_updated (some ["x.png".data])
    ⟨none, some "??".data, some "http://a".data, []⟩ (by decide) (by decide)

/-! ### Idempotence of the updater -/

/-- The search skips over any dot-free portion of the string. -/
theorem searchExt_append :
    ∀ (p : Str) {s : Str}, (∀ c ∈ p, ¬(c = '.')) → searchExt (p ++ s) = searchExt s := by
  intro p
  induction p with
  | nil => intro s _; rfl
  | cons c p' ih =>
    intro s hp
    rw [List.cons_append, searchExt,
      if_neg (fun hcc => hp c (List.mem_cons_self _ _) (eq_of_beq hcc))]
    exact ih (fun x hx => hp x (List.mem_cons_of_mem _ hx))

/-- Each alternative, when it is the trailing text itself, is matched. -/
theorem tryTokens_self : ∀ t ∈ extTokens, tryTokens extTokens t = some t := by decide

/-- On a string made of a dot-free part followed by `.` and a token, the
resolver returns exactly that token: the local path written by an update
re-resolves to the same extension. -/
theorem get_extension_local {p t : Str} (hp : ∀ c ∈ p, ¬(c = '.'))
    (ht : t ∈ extTokens) : get_extension_from_url (p ++ '.' :: t) = '.' :: t := by
  have hne : ¬(p ++ '.' :: t = []) := by simp
  rw [get_extension_from_url, if_neg hne, searchExt_append p hp, searchExt,
    if_pos (by decide), tryTokens_self t ht]

/-- The prefix `assets/logos/` together with a sanitized base name contains
no dot. -/
theorem localPrefix_no_dot (title : Str) :
    ∀ c ∈ "assets/logos/".data ++ sanitize_filename title, ¬(c = '.') := by
  intro c hc
  rcases List.mem_append.1 hc with hc | hc
  · intro hc'
    subst hc'
    simp at hc
  · exact sanitize_no_dot hc

/-- Recomputing the expected filename of an already-updated chapter yields
the same filename: sanitization still uses the (unchanged) title, and the
extension resolver applied to `assets/logos/<base><ext>` returns `<ext>`
again. -/
theorem expectedFilename_local (ch : Chapter) :
    expectedFilename
        { ch with logoUrl := some ("assets/logos/".data ++ expectedFilename ch) } =
      expectedFilename ch := by
  rcases get_extension_shape (ch.logoUrl.getD []) with ⟨t, htmem, hext⟩
  have hbase : expectedFilename ch =
      sanitize_filename (ch.title.getD []) ++ ('.' :: t) := by
    rw [expectedFilename, hext]
  rw [expectedFilename]
  have hurl : (({ ch with
      logoUrl := some ("assets/logos/".data ++ expectedFilename ch) } : Chapter)).logoUrl.getD []
      = "assets/logos/".data ++ expectedFilename ch := rfl
  rw [hurl, hbase, ← List.append_assoc,
    get_extension_local (localPrefix_no_dot (ch.title.getD [])) htmem]

/-- Processing a chapter twice is the same as processing it once. -/
theorem processChapter_idem (inv : List Str) (ch : Chapter) :
    processChapter inv (processChapter inv ch).1 = processChapter inv ch := by
  by_cases h : ch.logoUrl.getD [] = []
  · rw [processChapter_skip h]
    exact processChapter_skip h
  · by_cases hm : expectedFilename ch ∈ inv
    · rw [processChapter_updated h hm]
      have h' : ¬((({ ch with
          logoUrl := some ("assets/logos/".data ++ expectedFilename ch) } : Chapter)).logoUrl.getD []
          = []) := by simp
      have hm' : expectedFilename
          { ch with logoUrl := some ("assets/logos/".data ++ expectedFilename ch) } ∈ inv := by
        rw [expectedFilename_local ch]; exact hm
      have hstep := processChapter_updated h' hm'
      show processChapter inv
          { ch with logoUrl := some ("assets/logos/".data ++ expectedFilename ch) } = _
      rw [hstep, expectedFilename_local ch]
    · rw [processChapter_missing h hm]
      exact processChapter_missing h hm

/-- The processed chapter list is a fixed point of the loop. -/
theorem processChapters_fst_idem (inv : List Str) (l : List Chapter) :
    (processChapters inv (processChapters inv l).1).1 = (processChapters inv l).1 := by
  rw [processChapters_fst, processChapters_fst, List.map_map]
  apply List.map_congr_left
  intro ch _
  exact congrArg Prod.fst (processChapter_idem inv ch)

/-- C9: running the updater twice in succession with the same inventory
produces the same final document as running it once. -/
theorem updater_idempotent (inv : List Str) (doc : Document) :
    updateDocument inv (updateDocument inv doc) = updateDocument inv doc := by
  show Document.mk (processChapters inv (processChapters inv doc.chapters).1).1
      doc.otherParts = Document.mk (processChapters inv doc.chapters).1 doc.otherParts
  rw [processChapters_fst_idem]
